import Mathlib

/-!
Formal model of the timeline compositing engine in
`src/libs/VideoRendering.py`: the time-window filter, chord grouping,
corner layout, clip scheduling, and the save/cleanup control flow of
`VideoComposer.save`.  Times, durations and size ratios are modelled as
rationals, pixel coordinates and sizes as integers.
-/

/-- Translation of a note-event dictionary as consumed by `VideoRendering`:
the fields `note_name`, `start_time`, `end_time`, `duration`.  Remaining keys
(velocity, track metadata, ...) are opaque passthrough and omitted. -/
structure NoteEvent where
  note_name : String
  start_time : ℚ
  end_time : ℚ
  duration : ℚ
deriving DecidableEq

instance : Inhabited NoteEvent := ⟨⟨"", 0, 0, 0⟩⟩

/-- Drop test of `VideoRendering.py` line 128: an event is skipped when
`end_render_time` is set and `note_start >= end_render_time`, or when
`note_end <= start_render_time`. -/
def droppedNote (s : ℚ) (e : Option ℚ) (n : NoteEvent) : Bool :=
  (match e with
   | some ev => decide (ev ≤ n.start_time)
   | none => false) || decide (n.end_time ≤ s)

/-- Adjustment of a surviving event, `VideoRendering.py` lines 132-145:
`adjusted_start = max(note_start, start_render_time) - start_render_time`,
`adjusted_end = (min(note_end, end_render_time) if end set else note_end) -
start_render_time`, and the duration is recomputed from the two. -/
def adjustNote (s : ℚ) (e : Option ℚ) (n : NoteEvent) : NoteEvent :=
  let adjustedStart := max n.start_time s - s
  let adjustedEnd :=
    (match e with
     | some ev => min n.end_time ev
     | none => n.end_time) - s
  { n with
    start_time := adjustedStart
    end_time := adjustedEnd
    duration := adjustedEnd - adjustedStart }

/-- Loop of `VideoRendering.py` lines 122-147: events failing the range test
are skipped (`continue`), the others are adjusted and appended. -/
def filterNotesStart (s : ℚ) (e : Option ℚ) : List NoteEvent → List NoteEvent
  | [] => []
  | n :: ns =>
    if droppedNote s e n then filterNotesStart s e ns
    else adjustNote s e n :: filterNotesStart s e ns

/-- End-only truncation of `VideoRendering.py` lines 154-160: an event with
`end_time > end_render_time` gets `end_time := end_render_time` and its
duration recomputed; `start_time` is untouched. -/
def clipEnd (ev : ℚ) (n : NoteEvent) : NoteEvent :=
  if ev < n.end_time then
    { n with end_time := ev, duration := ev - n.start_time }
  else n

/-- Time-range filtering of `VideoRendering.py` lines 115-160: with a start
bound the drop-and-adjust loop runs; without one all notes are kept, only
truncated at `end_render_time` when that is set. -/
def filterNotes (notes : List NoteEvent) (startT endT : Option ℚ) : List NoteEvent :=
  match startT with
  | some s => filterNotesStart s endT notes
  | none =>
    match endT with
    | some ev => notes.map (clipEnd ev)
    | none => notes

/-- Keep condition written from the spec's words (section 4.2): drop events
with `endTime ≤ window.start` or (`window.end` set and
`startTime ≥ window.end`); this is the keep side of that condition. -/
def specKeep (s : ℚ) (e : Option ℚ) (n : NoteEvent) : Bool :=
  !(decide (n.end_time ≤ s) ||
    (match e with
     | some ev => decide (n.start_time ≥ ev)
     | none => false))

/-- Clipping written from the spec's words (section 4.2):
`adjustedStart = max(startTime, window.start) − window.start`;
`adjustedEnd = (window.end is set ? min(endTime, window.end) : endTime) −
window.start`; `adjustedDuration = adjustedEnd − adjustedStart`. -/
def specAdjust (s : ℚ) (e : Option ℚ) (n : NoteEvent) : NoteEvent :=
  { n with
    start_time := max n.start_time s - s
    end_time :=
      (match e with
       | some ev => min n.end_time ev
       | none => n.end_time) - s
    duration :=
      ((match e with
        | some ev => min n.end_time ev
        | none => n.end_time) - s) - (max n.start_time s - s) }

lemma droppedNote_eq_not_specKeep (s : ℚ) (e : Option ℚ) (n : NoteEvent) :
    droppedNote s e n = !(specKeep s e n) := by
  cases e <;> simp [droppedNote, specKeep, Bool.or_comm]

lemma adjustNote_eq_specAdjust (s : ℚ) (e : Option ℚ) (n : NoteEvent) :
    adjustNote s e n = specAdjust s e n := by
  cases e <;> rfl

/-- C1.  With a start bound `s` set, the filter is exactly: keep the events
that are not dropped by the spec's drop condition and rebase them with the
spec's clipping formulas; and the concrete scenario of window `[2, 4)` on an
event `{start: 1, end: 3}` yields `{start: 0, end: 1, duration: 1}`. -/
theorem C1_window_filter (notes : List NoteEvent) (s : ℚ) (e : Option ℚ) :
    filterNotes notes (some s) e = (notes.filter (specKeep s e)).map (specAdjust s e)
  ∧ filterNotes [⟨"A", 1, 3, 2⟩] (some 2) (some 4) = [⟨"A", 0, 1, 1⟩] := by
  constructor
  · show filterNotesStart s e notes = _
    induction notes with
    | nil => rfl
    | cons n ns ih =>
      by_cases hdrop : droppedNote s e n
      · have hk : specKeep s e n = false := by
          have := droppedNote_eq_not_specKeep s e n
          rw [hdrop] at this
          simpa using this.symm
        simp [filterNotesStart, hdrop, hk, ih]
      · have hk : specKeep s e n = true := by
          have := droppedNote_eq_not_specKeep s e n
          rw [Bool.not_eq_true] at hdrop
          rw [hdrop] at this
          simpa using this.symm
        simp [filterNotesStart, hdrop, hk, ih, adjustNote_eq_specAdjust]
  · norm_num [filterNotes, filterNotesStart, droppedNote, adjustNote, max_def, min_def]

/-- Rounding of one rational to the nearest integer, ties to even, matching
Python's `round` (banker's rounding) used at `VideoRendering.py` line 175. -/
def roundHalfEven (q : ℚ) : ℤ :=
  if q - ⌊q⌋ < 1/2 then ⌊q⌋
  else if 1/2 < q - ⌊q⌋ then ⌊q⌋ + 1
  else if ⌊q⌋ % 2 = 0 then ⌊q⌋ else ⌊q⌋ + 1

/-- Python's `round(q, 4)` from `VideoRendering.py` line 175. -/
def pyRound4 (q : ℚ) : ℚ := (roundHalfEven (q * 10000) : ℚ) / 10000

/-- Grouping key of `VideoRendering.py` line 175: `round(note['start_time'], 4)`. -/
def noteKey (n : NoteEvent) : ℚ := pyRound4 n.start_time

/-- One step of `note_groups[start_key].append(note)` on an insertion-ordered
association list: append to the entry with this key, or create a fresh
singleton entry at the end (`defaultdict(list)` keeps first-seen key order). -/
def addToGroups : List (ℚ × List NoteEvent) → ℚ → NoteEvent → List (ℚ × List NoteEvent)
  | [], k, n => [(k, [n])]
  | p :: rest, k, n =>
    if p.1 = k then (p.1, p.2 ++ [n]) :: rest
    else p :: addToGroups rest k n

/-- Loop of `VideoRendering.py` lines 173-176: bucket the filtered notes by
`round(start_time, 4)` into an insertion-ordered mapping. -/
def groupNotes (notes : List NoteEvent) : List (ℚ × List NoteEvent) :=
  notes.foldl (fun G n => addToGroups G (noteKey n) n) []

/-- Insertion step for the first-seen-order key sequence. -/
def seenInsert (acc : List ℚ) (k : ℚ) : List ℚ :=
  if k ∈ acc then acc else acc ++ [k]

/-- Keys of a list in first-seen order, each key once. -/
def firstSeen (l : List ℚ) : List ℚ := l.foldl seenInsert []

lemma mem_foldl_seenInsert (l : List ℚ) (acc : List ℚ) (x : ℚ) :
    x ∈ l.foldl seenInsert acc ↔ x ∈ acc ∨ x ∈ l := by
  induction l generalizing acc with
  | nil => simp
  | cons k ks ih =>
    simp only [List.foldl_cons, ih, seenInsert]
    by_cases hk : k ∈ acc
    · simp only [if_pos hk, List.mem_cons]
      constructor
      · rintro (h | h)
        · exact Or.inl h
        · exact Or.inr (Or.inr h)
      · rintro (h | h | h)
        · exact Or.inl h
        · exact Or.inl (h ▸ hk)
        · exact Or.inr h
    · simp only [if_neg hk, List.mem_append, List.mem_singleton, List.mem_cons]
      tauto
  
lemma nodup_foldl_seenInsert (l : List ℚ) (acc : List ℚ) (h : acc.Nodup) :
    (l.foldl seenInsert acc).Nodup := by
  induction l generalizing acc with
  | nil => simpa using h
  | cons k ks ih =>
    simp only [List.foldl_cons]
    apply ih
    by_cases hk : k ∈ acc
    · simpa [seenInsert, hk] using h
    · simp only [seenInsert, if_neg hk]
      simpa [List.nodup_append] using ⟨h, hk⟩

lemma mem_firstSeen {x : ℚ} {l : List ℚ} : x ∈ firstSeen l ↔ x ∈ l := by
  simp [firstSeen, mem_foldl_seenInsert]

lemma firstSeen_nodup (l : List ℚ) : (firstSeen l).Nodup :=
  nodup_foldl_seenInsert l [] List.nodup_nil

lemma firstSeen_concat (l : List ℚ) (k : ℚ) :
    firstSeen (l ++ [k]) = seenInsert (firstSeen l) k := by
  simp [firstSeen, List.foldl_append]

lemma addToGroups_map_fst (G : List (ℚ × List NoteEvent)) (k : ℚ) (n : NoteEvent) :
    (addToGroups G k n).map Prod.fst = seenInsert (G.map Prod.fst) k := by
  induction G with
  | nil => simp [addToGroups, seenInsert]
  | cons p rest ih =>
    by_cases hp : p.1 = k
    · have hmem : k ∈ (p :: rest).map Prod.fst := by simp [← hp]
      simp [addToGroups, hp, seenInsert, hmem]
    · by_cases hk : k ∈ rest.map Prod.fst
      · have hmem : k ∈ (p :: rest).map Prod.fst := by simp [hk]
        simp [addToGroups, hp, seenInsert, hmem, ih, hk]
      · have hmem : k ∉ (p :: rest).map Prod.fst := by
          simp only [List.map_cons, List.mem_cons]
          rintro (h | h)
          · exact hp h.symm
          · exact hk h
        have hkp : ¬ k = p.1 := fun h => hp h.symm
        simp [addToGroups, hp, seenInsert, ih, hk, hmem, hkp]

lemma addToGroups_not_mem (G : List (ℚ × List NoteEvent)) (k : ℚ) (n : NoteEvent)
    (hk : k ∉ G.map Prod.fst) :
    addToGroups G k n = G ++ [(k, [n])] := by
  induction G with
  | nil => rfl
  | cons p rest ih =>
    have hp : p.1 ≠ k := by
      intro h
      exact hk (by simp [h])
    have hk2 : k ∉ rest.map Prod.fst := by
      intro h
      exact hk (by simp [h])
    simp [addToGroups, hp, ih hk2]

lemma addToGroups_mem_nodup (G : List (ℚ × List NoteEvent)) (k : ℚ) (n : NoteEvent)
    (hnd : (G.map Prod.fst).Nodup) (hk : k ∈ G.map Prod.fst) :
    addToGroups G k n = G.map (fun q => if q.1 = k then (q.1, q.2 ++ [n]) else q) := by
  induction G with
  | nil => simp at hk
  | cons p rest ih =>
    have hpn : p.1 ∉ rest.map Prod.fst := by
      have := hnd
      simp only [List.map_cons, List.nodup_cons] at this
      exact this.1
    have hnd2 : (rest.map Prod.fst).Nodup := by
      have := hnd
      simp only [List.map_cons, List.nodup_cons] at this
      exact this.2
    by_cases hp : p.1 = k
    · have hrest : rest.map (fun q => if q.1 = k then (q.1, q.2 ++ [n]) else q) = rest := by
        have hid : ∀ q ∈ rest, (if q.1 = k then (q.1, q.2 ++ [n]) else q) = q := by
          intro q hq
          have hqk : q.1 ≠ k := by
            intro h
            exact hpn (by rw [hp, ← h]; exact List.mem_map_of_mem Prod.fst hq)
          simp [hqk]
        rw [List.map_congr_left hid]
        simp
      simp [addToGroups, hp, hrest]
    · have hk2 : k ∈ rest.map Prod.fst := by
        rcases (by simpa using hk : k = p.1 ∨ k ∈ rest.map Prod.fst) with h | h
        · exact absurd h.symm hp
        · exact h
      simp [addToGroups, hp, ih hnd2 hk2]

lemma addToGroups_flatten_perm (G : List (ℚ × List NoteEvent)) (k : ℚ) (n : NoteEvent) :
    ((addToGroups G k n).map Prod.snd).flatten.Perm ((G.map Prod.snd).flatten ++ [n]) := by
  induction G with
  | nil => simp [addToGroups]
  | cons p rest ih =>
    by_cases hp : p.1 = k
    · simp only [addToGroups, if_pos hp, List.map_cons, List.flatten_cons]
      rw [List.append_assoc, List.append_assoc]
      exact List.Perm.append_left _ List.perm_append_comm
    · simp only [addToGroups, if_neg hp, List.map_cons, List.flatten_cons]
      rw [List.append_assoc]
      exact List.Perm.append_left _ ih

/-- Invariant of the grouping loop: the grouper state `G` lists the keys of
the notes consumed so far in first-seen order, and each entry holds exactly
the consumed notes with that key, in input order. -/
def GroupInv (notes : List NoteEvent) (G : List (ℚ × List NoteEvent)) : Prop :=
  (G.map Prod.fst = firstSeen (notes.map noteKey))
  ∧ ∀ p ∈ G, p.2 = notes.filter (fun n => decide (noteKey n = p.1))

lemma groupInv_step (notes : List NoteEvent) (G : List (ℚ × List NoteEvent))
    (h : GroupInv notes G) (n : NoteEvent) :
    GroupInv (notes ++ [n]) (addToGroups G (noteKey n) n) := by
  obtain ⟨hkeys, hcontent⟩ := h
  have hnd : (G.map Prod.fst).Nodup := by
    rw [hkeys]
    exact firstSeen_nodup _
  constructor
  · rw [addToGroups_map_fst, hkeys, List.map_append, List.map_singleton,
      firstSeen_concat]
  · by_cases hk : noteKey n ∈ G.map Prod.fst
    · rw [addToGroups_mem_nodup G (noteKey n) n hnd hk]
      intro q hq
      rcases List.mem_map.mp hq with ⟨p, hpG, hpq⟩
      by_cases hp : p.1 = noteKey n
      · rw [if_pos hp] at hpq
        rw [← hpq]
        simp only [List.filter_append]
        rw [← hcontent p hpG, hp]
        simp
      · rw [if_neg hp] at hpq
        rw [← hpq]
        simp only [List.filter_append]
        rw [← hcontent p hpG]
        have : ¬ noteKey n = p.1 := fun hcon => hp hcon.symm
        simp [this]
    · rw [addToGroups_not_mem G (noteKey n) n hk]
      intro q hq
      rcases List.mem_append.mp hq with hqG | hqNew
      · have hq1 : q.1 ≠ noteKey n := by
          intro hcon
          exact hk (hcon ▸ List.mem_map_of_mem Prod.fst hqG)
        simp only [List.filter_append]
        rw [← hcontent q hqG]
        have : ¬ noteKey n = q.1 := fun hcon => hq1 hcon.symm
        simp [this]
      · have hq2 : q = (noteKey n, [n]) := by simpa using hqNew
        subst hq2
        have hnone : notes.filter (fun m => decide (noteKey m = noteKey n)) = [] := by
          rw [List.filter_eq_nil_iff]
          intro m hm
          simp only [decide_eq_true_eq]
          intro hcon
          apply hk
          rw [hkeys, mem_firstSeen, ← hcon]
          exact List.mem_map_of_mem noteKey hm
        simp [List.filter_append, hnone]

lemma groupNotes_concat (notes : List NoteEvent) (n : NoteEvent) :
    groupNotes (notes ++ [n]) = addToGroups (groupNotes notes) (noteKey n) n := by
  simp [groupNotes, List.foldl_append]

lemma groupNotes_inv (notes : List NoteEvent) : GroupInv notes (groupNotes notes) := by
  induction notes using List.reverseRecOn with
  | nil =>
    constructor
    · rfl
    · intro p hp
      simp [groupNotes] at hp
  | append_singleton l n ih =>
    rw [groupNotes_concat]
    exact groupInv_step l (groupNotes l) ih n

lemma groupNotes_flatten_perm (notes : List NoteEvent) :
    ((groupNotes notes).map Prod.snd).flatten.Perm notes := by
  induction notes using List.reverseRecOn with
  | nil => simp [groupNotes]
  | append_singleton l n ih =>
    rw [groupNotes_concat]
    exact (addToGroups_flatten_perm (groupNotes l) (noteKey n) n).trans
      (List.Perm.append ih (List.Perm.refl [n]))

/-- C2.  Grouping is a partition keyed by `round(startTime, 4)`: the chords
are listed in first-seen-key order with pairwise distinct keys, the chord of
key `k` is exactly the sublist of input events whose rounded start is `k`
(so every event is in exactly one chord and relative input order is kept
inside each chord), and the concatenation of all chords is a permutation of
the input (the same multiset). -/
theorem C2_grouping_partition (notes : List NoteEvent) :
    ((groupNotes notes).map Prod.fst = firstSeen (notes.map noteKey))
  ∧ ((groupNotes notes).map Prod.fst).Nodup
  ∧ (∀ p ∈ groupNotes notes, p.2 = notes.filter (fun n => decide (noteKey n = p.1)))
  ∧ (((groupNotes notes).map Prod.snd).flatten : Multiset NoteEvent) = (notes : Multiset NoteEvent) := by
  obtain ⟨hkeys, hcontent⟩ := groupNotes_inv notes
  refine ⟨hkeys, ?_, hcontent, ?_⟩
  · rw [hkeys]
    exact firstSeen_nodup _
  · exact Quot.sound (groupNotes_flatten_perm notes)

/-- Python's `int()` on a rational: truncation toward zero, as applied to
`output_width * chord_size_ratio` at `VideoRendering.py` lines 197-198. -/
def pyInt (q : ℚ) : ℤ := if 0 ≤ q then ⌊q⌋ else ⌈q⌉

/-- Chord-clip width `int(output_width * chord_size_ratio)`, line 197. -/
def chordW (w : ℕ) (r : ℚ) : ℤ := pyInt ((w : ℚ) * r)

/-- Chord-clip height `int(output_height * chord_size_ratio)`, line 198. -/
def chordH (h : ℕ) (r : ℚ) : ℤ := pyInt ((h : ℚ) * r)

/-- Corner position table of `VideoRendering.py` lines 202-207: top-left,
top-right, bottom-left, bottom-right. -/
def cornerPositions (w h : ℕ) (r : ℚ) : List (ℤ × ℤ) :=
  [(0, 0),
   ((w : ℤ) - chordW w r, 0),
   (0, (h : ℤ) - chordH h r),
   ((w : ℤ) - chordW w r, (h : ℤ) - chordH h r)]

/-- Screen region decision for one chord member: a position plus pixel size,
or dropped with a warning. -/
inductive Placement where
  | placed (pos : ℤ × ℤ) (size : ℤ × ℤ)
  | dropped
deriving DecidableEq

/-- Placement logic of `VideoRendering.py` lines 215-243 for member `i` of a
chord of `num` notes: a single note or the first member is shown full frame
at `(0, 0)` in the negotiated output size; members `i` with `i - 1` inside
the corner table get corner position `i - 1` at the chord-clip size; later
members are dropped (warning at line 243). -/
def assignPlacement (num : ℕ) (w h : ℕ) (r : ℚ) (i : ℕ) : Placement :=
  if num = 1 then Placement.placed (0, 0) ((w : ℤ), (h : ℤ))
  else if i = 0 then Placement.placed (0, 0) ((w : ℤ), (h : ℤ))
  else if i - 1 < (cornerPositions w h r).length then
    Placement.placed ((cornerPositions w h r).getD (i - 1) (0, 0)) (chordW w r, chordH h r)
  else Placement.dropped

lemma pyInt_eq_floor {q : ℚ} (h : 0 ≤ q) : pyInt q = ⌊q⌋ := if_pos h

lemma chordW_eq_floor (w : ℕ) {r : ℚ} (hr : 0 ≤ r) : chordW w r = ⌊(w : ℚ) * r⌋ :=
  pyInt_eq_floor (mul_nonneg (by positivity) hr)

lemma chordH_eq_floor (h : ℕ) {r : ℚ} (hr : 0 ≤ r) : chordH h r = ⌊(h : ℚ) * r⌋ :=
  pyInt_eq_floor (mul_nonneg (by positivity) hr)

/-- C3.  For a chord of at least two notes and an admissible (nonnegative)
ratio, members 1-4 are sized `(⌊w·r⌋, ⌊h·r⌋)` and put, in order, at
top-left, top-right, bottom-left, bottom-right, the far edges flush with the
frame (position `outputSize − cornerSize` on the relevant axis). -/
theorem C3_corner_layout (num w h : ℕ) (r : ℚ) (hnum : 2 ≤ num) (hr : 0 ≤ r) :
    assignPlacement num w h r 1 =
      Placement.placed (0, 0) (⌊(w : ℚ) * r⌋, ⌊(h : ℚ) * r⌋)
  ∧ assignPlacement num w h r 2 =
      Placement.placed ((w : ℤ) - ⌊(w : ℚ) * r⌋, 0) (⌊(w : ℚ) * r⌋, ⌊(h : ℚ) * r⌋)
  ∧ assignPlacement num w h r 3 =
      Placement.placed (0, (h : ℤ) - ⌊(h : ℚ) * r⌋) (⌊(w : ℚ) * r⌋, ⌊(h : ℚ) * r⌋)
  ∧ assignPlacement num w h r 4 =
      Placement.placed ((w : ℤ) - ⌊(w : ℚ) * r⌋, (h : ℤ) - ⌊(h : ℚ) * r⌋)
        (⌊(w : ℚ) * r⌋, ⌊(h : ℚ) * r⌋) := by
  have hne : num ≠ 1 := by omega
  refine ⟨?_, ?_, ?_, ?_⟩ <;>
    simp [assignPlacement, hne, cornerPositions, chordW_eq_floor w hr,
      chordH_eq_floor h hr]

/-- Witness for C3 at a concrete chord and output size. -/
theorem C3_corner_layout_witness :
    assignPlacement 2 100 50 (2/5) 1 = Placement.placed (0, 0) (40, 20)
  ∧ assignPlacement 2 100 50 (2/5) 2 = Placement.placed (60, 0) (40, 20)
  ∧ assignPlacement 2 100 50 (2/5) 3 = Placement.placed (0, 30) (40, 20)
  ∧ assignPlacement 2 100 50 (2/5) 4 = Placement.placed (60, 30) (40, 20) := by
  obtain ⟨h1, h2, h3, h4⟩ := C3_corner_layout 2 100 50 (2/5) (by norm_num) (by norm_num)
  norm_num at h1 h2 h3 h4
  exact ⟨h1, h2, h3, h4⟩

/-- Path construction `os.path.join(video_dir, f"{note_name}.mp4")` of
`VideoRendering.py` lines 97 and 213. -/
def mkPath (dir note_name : String) : String := dir ++ "/" ++ note_name ++ ".mp4"

/-- Record of one `composer.add_clip(...)` call: `VideoRendering.py` line 22
signature `(video_path, start_time, duration, position, custom_size)`. -/
structure ClipAdd where
  path : String
  start : ℚ
  duration : ℚ
  position : ℤ × ℤ
  custom : Option (ℤ × ℤ)
deriving DecidableEq

/-- Body of the member loop of `VideoRendering.py` lines 210-243 for member
`i` of a chord of `num` notes: the `add_clip` call it performs, or `none`
when the member only prints the drop warning (line 243).  Durations get the
sustain added (line 212); the scheduled start is the chord's `start_time`. -/
def memberClip (dir : String) (sust : ℚ) (num w h : ℕ) (r : ℚ) (st : ℚ)
    (i : ℕ) (n : NoteEvent) : Option ClipAdd :=
  match assignPlacement num w h r i with
  | Placement.placed pos _ =>
      some { path := mkPath dir n.note_name
             start := st
             duration := n.duration + sust
             position := pos
             custom := if num = 1 ∨ i = 0 then none else some (chordW w r, chordH h r) }
  | Placement.dropped => none

/-- Clips added for one chord group, in loop order (`VideoRendering.py`
lines 182-243): member `i` is `group_notes[i]`, `num` the chord size and the
scheduled start the first member's un-rounded `start_time` (line 184). -/
def chordClips (dir : String) (sust : ℚ) (w h : ℕ) (r : ℚ)
    (g : List NoteEvent) : List ClipAdd :=
  g.enum.filterMap (fun p => memberClip dir sust g.length w h r g.headI.start_time p.1 p.2)

/-- Number of dropped-member warnings printed for one chord group
(`VideoRendering.py` line 243). -/
def chordWarnings (dir : String) (sust : ℚ) (w h : ℕ) (r : ℚ)
    (g : List NoteEvent) : ℕ :=
  (g.enum.filter
    (fun p => (memberClip dir sust g.length w h r g.headI.start_time p.1 p.2).isNone)).length

/-- Membership of one integer point in a half-open pixel rectangle given by
position and size. -/
def inRect (p s q : ℤ × ℤ) : Prop :=
  p.1 ≤ q.1 ∧ q.1 < p.1 + s.1 ∧ p.2 ≤ q.2 ∧ q.2 < p.2 + s.2

/-- Two position/size rectangles overlap when some pixel lies in both. -/
def rectsOverlap (p1 s1 p2 s2 : ℤ × ℤ) : Prop :=
  ∃ q : ℤ × ℤ, inRect p1 s1 q ∧ inRect p2 s2 q

/-- Overlap of two placements; a dropped placement overlaps nothing. -/
def placementsOverlap : Placement → Placement → Prop
  | Placement.placed p1 s1, Placement.placed p2 s2 => rectsOverlap p1 s1 p2 s2
  | _, Placement.dropped => False
  | Placement.dropped, _ => False

lemma two_chordW_le (w : ℕ) {r : ℚ} (h0 : 0 ≤ r) (h2 : r ≤ 1/2) :
    2 * chordW w r ≤ (w : ℤ) := by
  rw [chordW_eq_floor w h0]
  have hfl : ((⌊(w : ℚ) * r⌋ : ℤ) : ℚ) ≤ (w : ℚ) * r := Int.floor_le _
  have hle : (w : ℚ) * r ≤ (w : ℚ) * (1/2) :=
    mul_le_mul_of_nonneg_left h2 (by positivity)
  have hq : ((2 * ⌊(w : ℚ) * r⌋ : ℤ) : ℚ) ≤ (w : ℚ) := by
    push_cast
    nlinarith
  exact_mod_cast hq

lemma two_chordH_le (h : ℕ) {r : ℚ} (h0 : 0 ≤ r) (h2 : r ≤ 1/2) :
    2 * chordH h r ≤ (h : ℤ) := by
  rw [chordH_eq_floor h h0]
  have hfl : ((⌊(h : ℚ) * r⌋ : ℤ) : ℚ) ≤ (h : ℚ) * r := Int.floor_le _
  have hle : (h : ℚ) * r ≤ (h : ℚ) * (1/2) :=
    mul_le_mul_of_nonneg_left h2 (by positivity)
  have hq : ((2 * ⌊(h : ℚ) * r⌋ : ℤ) : ℚ) ≤ (h : ℚ) := by
    push_cast
    nlinarith
  exact_mod_cast hq

/-- Counterexample to C4 as stated: at output size 100x100 and the admissible
ratio 3/5 ∈ (0, 1), the top-left and top-right corner placements share the
pixel (40, 0), so the four corner placements are not pairwise
non-overlapping for every ratio in (0, 1). -/
theorem C4_counterexample :
    ((0 : ℚ) < 3/5 ∧ (3/5 : ℚ) < 1)
  ∧ assignPlacement 2 100 100 (3/5) 1 = Placement.placed (0, 0) (60, 60)
  ∧ assignPlacement 2 100 100 (3/5) 2 = Placement.placed (40, 0) (60, 60)
  ∧ placementsOverlap (assignPlacement 2 100 100 (3/5) 1)
      (assignPlacement 2 100 100 (3/5) 2) := by
  have h1 : assignPlacement 2 100 100 (3/5) 1 = Placement.placed (0, 0) (60, 60) := by
    norm_num [assignPlacement, cornerPositions, chordW, chordH, pyInt]
  have h2 : assignPlacement 2 100 100 (3/5) 2 = Placement.placed (40, 0) (60, 60) := by
    norm_num [assignPlacement, cornerPositions, chordW, chordH, pyInt]
  refine ⟨⟨by norm_num, by norm_num⟩, h1, h2, ?_⟩
  rw [h1, h2]
  show rectsOverlap (0, 0) (60, 60) (40, 0) (60, 60)
  refine ⟨(40, 0), ?_, ?_⟩ <;> simp [inRect]

/-- C4 as amended: the pairwise non-overlap of the corner placements for
member indices 1-4 holds for ratios up to 1/2 (not for all of (0, 1), see
the counterexample at ratio 3/5); member index 0 always yields position
(0, 0) at the output size; in a chord of several notes every member index
at least 5 is dropped; and a chord of 6 notes produces exactly 5 placed
layers and 1 dropped-member warning. -/
theorem C4_amended_layout (w h num : ℕ) (r : ℚ) (h0 : 0 ≤ r) (h2 : r ≤ 1/2)
    (hnum : 2 ≤ num) :
    (∀ i j, 1 ≤ i → i ≤ 4 → 1 ≤ j → j ≤ 4 → i ≠ j →
      ¬ placementsOverlap (assignPlacement num w h r i) (assignPlacement num w h r j))
  ∧ (∀ m, assignPlacement m w h r 0 = Placement.placed (0, 0) ((w : ℤ), (h : ℤ)))
  ∧ (∀ i, 5 ≤ i → assignPlacement num w h r i = Placement.dropped)
  ∧ (∀ dir sust (g : List NoteEvent), g.length = 6 →
      (chordClips dir sust w h r g).length = 5 ∧ chordWarnings dir sust w h r g = 1) := by
  have hne : num ≠ 1 := by omega
  have hw2 : 2 * chordW w r ≤ (w : ℤ) := two_chordW_le w h0 h2
  have hh2 : 2 * chordH h r ≤ (h : ℤ) := two_chordH_le h h0 h2
  have hcorner : ∀ i, 1 ≤ i → i ≤ 4 →
      assignPlacement num w h r i =
        Placement.placed ((cornerPositions w h r).getD (i - 1) (0, 0))
          (chordW w r, chordH h r) := by
    intro i h1 h4
    have hi0 : i ≠ 0 := by omega
    have hlen : i - 1 < (cornerPositions w h r).length := by
      simp only [cornerPositions, List.length_cons, List.length_nil]
      omega
    simp [assignPlacement, hne, hi0, hlen]
  refine ⟨?_, ?_, ?_, ?_⟩
  · intro i j h1i h4i h1j h4j hij
    rw [hcorner i h1i h4i, hcorner j h1j h4j]
    intro hcon
    simp only [placementsOverlap, rectsOverlap] at hcon
    obtain ⟨q, hq1, hq2⟩ := hcon
    interval_cases i <;> interval_cases j <;>
      first
        | exact hij rfl
        | (simp [cornerPositions, inRect] at hq1 hq2; omega)
  · intro m
    by_cases hm : m = 1 <;> simp [assignPlacement, hm]
  · intro i hi
    have hi0 : i ≠ 0 := by omega
    have hilen : ¬ (i - 1 < (cornerPositions w h r).length) := by
      simp only [cornerPositions, List.length_cons, List.length_nil]
      omega
    simp [assignPlacement, hne, hi0, hilen]
  · intro dir sust g hg
    match g, hg with
    | [a, b, c, d, e, f], _ =>
      refine ⟨?_, ?_⟩ <;>
        simp [chordClips, chordWarnings, List.enum, List.enumFrom, memberClip,
          assignPlacement, hne, cornerPositions]

/-- Six-note chord used to witness the dropped-member scenario. -/
def g6 : List NoteEvent :=
  [⟨"C4", 0, 1, 1⟩, ⟨"E4", 0, 1, 1⟩, ⟨"G4", 0, 1, 1⟩,
   ⟨"B4", 0, 1, 1⟩, ⟨"D5", 0, 1, 1⟩, ⟨"F5", 0, 1, 1⟩]

/-- Witness for the amended C4 at output 100x100, ratio 2/5, chord size 2,
and a concrete 6-note chord. -/
theorem C4_amended_layout_witness :
    ¬ placementsOverlap (assignPlacement 2 100 100 (2/5) 1)
        (assignPlacement 2 100 100 (2/5) 2)
  ∧ assignPlacement 2 100 100 (2/5) 0 = Placement.placed (0, 0) (100, 100)
  ∧ assignPlacement 2 100 100 (2/5) 5 = Placement.dropped
  ∧ (chordClips "sounds" (3/10) 100 100 (2/5) g6).length = 5
  ∧ chordWarnings "sounds" (3/10) 100 100 (2/5) g6 = 1 := by
  have h := C4_amended_layout 100 100 2 (2/5) (by norm_num) (by norm_num) (by norm_num)
  have hscen := h.2.2.2 "sounds" (3/10) g6 (by decide)
  refine ⟨h.1 1 2 (by norm_num) (by norm_num) (by norm_num) (by norm_num) (by norm_num),
    ?_, h.2.2.1 5 (by norm_num), hscen.1, hscen.2⟩
  exact_mod_cast h.2.1 2

/-- Flattening of `VideoComposer.save` line 67:
`CompositeVideoClip([background] + self.clips)` composes the background
first, then the accumulated clips in the order they were appended. -/
def compositeClips (background : ClipAdd) (clips : List ClipAdd) : List ClipAdd :=
  background :: clips

/-- Chord loop of `VideoRendering.py` lines 182-243: the composer's clip
list after processing the groups in grouper order, each chord appending its
clips in member order. -/
def addClipsFold (dir : String) (sust : ℚ) (w h : ℕ) (r : ℚ)
    (groups : List (ℚ × List NoteEvent)) : List ClipAdd :=
  groups.foldl (fun acc kg => acc ++ chordClips dir sust w h r kg.2) []

lemma foldl_append_flatten {α β : Type} (f : α → List β) (l : List α) (acc : List β) :
    l.foldl (fun a x => a ++ f x) acc = acc ++ (l.map f).flatten := by
  induction l generalizing acc with
  | nil => simp
  | cons x xs ih => simp [ih, List.append_assoc]

lemma addClipsFold_eq (dir : String) (sust : ℚ) (w h : ℕ) (r : ℚ)
    (groups : List (ℚ × List NoteEvent)) :
    addClipsFold dir sust w h r groups =
      (groups.map (fun kg => chordClips dir sust w h r kg.2)).flatten := by
  rw [addClipsFold, foldl_append_flatten]
  rfl

lemma memberClip_start {dir : String} {sust : ℚ} {num w h : ℕ} {r : ℚ} {st : ℚ}
    {i : ℕ} {n : NoteEvent} {c : ClipAdd}
    (hc : memberClip dir sust num w h r st i n = some c) : c.start = st := by
  unfold memberClip at hc
  cases hpl : assignPlacement num w h r i with
  | placed pos sz =>
    rw [hpl] at hc
    simp only [Option.some.injEq] at hc
    rw [← hc]
  | dropped =>
    rw [hpl] at hc
    exact Option.noConfusion hc

lemma chordClips_cons_full (dir : String) (sust : ℚ) (w h : ℕ) (r : ℚ)
    (g : List NoteEvent) (hg : 2 ≤ g.length) :
    ∃ rest, chordClips dir sust w h r g =
      { path := mkPath dir g.headI.note_name
        start := g.headI.start_time
        duration := g.headI.duration + sust
        position := (0, 0)
        custom := none } :: rest
    ∧ ∀ c ∈ rest, c.custom = some (chordW w r, chordH h r) := by
  match g, hg with
  | n0 :: g1, hg =>
    have hne : (n0 :: g1).length ≠ 1 := by
      simp only [List.length_cons] at hg ⊢
      omega
    refine ⟨(List.enumFrom 1 g1).filterMap
      (fun p => memberClip dir sust (n0 :: g1).length w h r n0.start_time p.1 p.2), ?_, ?_⟩
    · show ((n0 :: g1).enum).filterMap _ = _
      have henum : (n0 :: g1).enum = (0, n0) :: List.enumFrom 1 g1 := rfl
      rw [henum, List.filterMap_cons]
      simp [memberClip, assignPlacement, hne]
    · intro c hc
      rcases List.mem_filterMap.mp hc with ⟨p, hpmem, hpeq⟩
      obtain ⟨i, x⟩ := p
      have h1i : 1 ≤ i :=
        (List.mk_mem_enumFrom_iff_le_and_getElem?_sub.mp hpmem).1
      have hi0 : i ≠ 0 := by omega
      by_cases hlt : i - 1 < (cornerPositions w h r).length
      · have hpl : assignPlacement (n0 :: g1).length w h r i =
            Placement.placed ((cornerPositions w h r).getD (i - 1) (0, 0))
              (chordW w r, chordH h r) := by
          simp only [assignPlacement]
          rw [if_neg hne, if_neg hi0, if_pos hlt]
        simp only [memberClip, hpl, Option.some.injEq] at hpeq
        have hg1 : g1 ≠ [] := by
          intro hnil
          rw [hnil] at hne
          exact hne rfl
        rw [← hpeq]
        simp [hne, hi0, hg1]
      · have hpl : assignPlacement (n0 :: g1).length w h r i = Placement.dropped := by
          simp only [assignPlacement]
          rw [if_neg hne, if_neg hi0, if_neg hlt]
        simp only [memberClip, hpl] at hpeq
        exact Option.noConfusion hpeq

/-- C7.  The flattened composition is the background followed by the clips
exactly in the order the chord loop added them (grouper order, member order
inside each chord); and in every chord of two or more notes the first added
clip is the full-frame member-0 clip, every later clip of that chord being a
corner clip (carrying the corner custom size), so the corner layers are
composited above the full-frame layer. -/
theorem C7_layer_order (dir : String) (sust : ℚ) (w h : ℕ) (r : ℚ) (bg : ClipAdd)
    (groups : List (ℚ × List NoteEvent)) :
    compositeClips bg (addClipsFold dir sust w h r groups) =
      bg :: (groups.map (fun kg => chordClips dir sust w h r kg.2)).flatten
  ∧ ∀ g : List NoteEvent, 2 ≤ g.length →
      ∃ rest, chordClips dir sust w h r g =
        { path := mkPath dir g.headI.note_name
          start := g.headI.start_time
          duration := g.headI.duration + sust
          position := (0, 0)
          custom := none } :: rest
      ∧ ∀ c ∈ rest, c.custom = some (chordW w r, chordH h r) :=
  ⟨congrArg (List.cons bg) (addClipsFold_eq dir sust w h r groups),
   fun g hg => chordClips_cons_full dir sust w h r g hg⟩

/-- Two-note chord whose members start 1/100 apart, used as witness data. -/
def gW : List NoteEvent := [⟨"A", 1, 2, 1⟩, ⟨"B", 101/100, 2, 99/100⟩]

/-- Witness for C7 on a concrete two-note chord. -/
theorem C7_layer_order_witness :
    ∃ rest, chordClips "sounds" (3/10) 2 2 (1/2) gW =
      { path := mkPath "sounds" gW.headI.note_name
        start := gW.headI.start_time
        duration := gW.headI.duration + 3/10
        position := (0, 0)
        custom := none } :: rest
    ∧ ∀ c ∈ rest, c.custom = some (chordW 2 (1/2), chordH 2 (1/2)) :=
  (C7_layer_order "sounds" (3/10) 2 2 (1/2) ⟨"bg", 0, 0, (0, 0), none⟩ []).2 gW
    (by decide)

/-- C10.  Every clip added for a chord group is scheduled at the chord's
first event's un-rounded `start_time` (`VideoRendering.py` line 184); chord
members whose own start times differ from it within the rounding tolerance
are still scheduled at that shared start. -/
theorem C10_chord_scheduled_start (dir : String) (sust : ℚ) (w h : ℕ) (r : ℚ)
    (g : List NoteEvent) (c : ClipAdd) (hc : c ∈ chordClips dir sust w h r g) :
    c.start = g.headI.start_time := by
  rcases List.mem_filterMap.mp hc with ⟨p, hpmem, hpeq⟩
  exact memberClip_start hpeq

/-- Witness for C10: the corner clip of the second member of `gW` (own start
101/100) is scheduled at the first member's start 1. -/
theorem C10_chord_scheduled_start_witness :
    ({ path := mkPath "sounds" "B", start := 1, duration := 99/100 + 3/10,
       position := (0, 0), custom := some (chordW 2 (1/2), chordH 2 (1/2)) } : ClipAdd).start
      = gW.headI.start_time :=
  C10_chord_scheduled_start "sounds" (3/10) 2 2 (1/2) gW _
    (by simp [chordClips, gW, List.enum, List.enumFrom, memberClip, assignPlacement,
      cornerPositions, mkPath])

/-- Exit paths of `VideoComposer.save` (`VideoRendering.py` lines 54-89):
the guard `ValueError` for an empty clip list, a propagated exception from
`write_videofile`, or normal completion. -/
inductive SaveOutcome where
  | noLayersError
  | writeFailed
  | success
deriving DecidableEq

/-- Observable effects of one `save` call: whether the output file write
completed, whether the per-layer clip handles were closed (lines 80-83), and
how many times the global cache was closed-and-cleared (lines 85-89). -/
structure SaveResult where
  outcome : SaveOutcome
  wrote : Bool
  clipsClosed : Bool
  releaseAllCount : ℕ
deriving DecidableEq

/-- Control flow of `VideoComposer.save`, `VideoRendering.py` lines 54-89.
The underlying `write_videofile` call is opaque media I/O; `writeOk` says
whether it returns normally or raises.  There is no try/finally: the close
and cache-clear statements (lines 79-89) run only after a normal return of
the write, and the empty-clips guard raises before anything is written. -/
def saveModel (clips : List ClipAdd) (writeOk : Bool) : SaveResult :=
  if clips.isEmpty then
    { outcome := SaveOutcome.noLayersError
      wrote := false
      clipsClosed := false
      releaseAllCount := 0 }
  else if writeOk then
    { outcome := SaveOutcome.success
      wrote := true
      clipsClosed := true
      releaseAllCount := 1 }
  else
    { outcome := SaveOutcome.writeFailed
      wrote := false
      clipsClosed := false
      releaseAllCount := 0 }

/-- Clip record used as concrete witness data for the composer claims. -/
def clip0 : ClipAdd :=
  { path := "sounds/A.mp4", start := 0, duration := 1, position := (0, 0), custom := none }

/-- Counterexample to C5 as stated: with one added layer, when the
underlying write raises, `save` exits with the exception while the layer
clip handles are not closed and the cache is not released — the release is
not performed on every exit path. -/
theorem C5_counterexample :
    (saveModel [clip0] false).outcome = SaveOutcome.writeFailed
  ∧ (saveModel [clip0] false).clipsClosed = false
  ∧ (saveModel [clip0] false).releaseAllCount = 0 := by
  refine ⟨rfl, rfl, rfl⟩

/-- C5 as amended: the layer clip handles are closed and the cache released
exactly on the successful exit path of `save`; on the no-layers exit and on
a write failure neither release happens. -/
theorem C5_amended_release (clips : List ClipAdd) (writeOk : Bool) :
    (saveModel clips writeOk).clipsClosed =
      decide ((saveModel clips writeOk).outcome = SaveOutcome.success)
  ∧ (saveModel clips writeOk).releaseAllCount =
      (if (saveModel clips writeOk).outcome = SaveOutcome.success then 1 else 0) := by
  by_cases hclips : clips.isEmpty <;> cases writeOk <;>
    simp [saveModel, hclips]

/-- C6.  With zero added clips `save` raises the no-layers error and writes
nothing; with at least one clip and a successful write it completes and
clears the cache exactly once. -/
theorem C6_render_paths (clips : List ClipAdd) (writeOk : Bool) (hne : clips ≠ []) :
    ((saveModel [] writeOk).outcome = SaveOutcome.noLayersError
      ∧ (saveModel [] writeOk).wrote = false)
  ∧ ((saveModel clips true).outcome = SaveOutcome.success
      ∧ (saveModel clips true).releaseAllCount = 1) := by
  have hemp : clips.isEmpty = false := by
    cases clips with
    | nil => exact absurd rfl hne
    | cons a l => rfl
  refine ⟨⟨rfl, rfl⟩, ?_, ?_⟩ <;> simp [saveModel, hemp]

/-- Witness for C6 with one concrete clip. -/
theorem C6_render_paths_witness :
    ((saveModel [] true).outcome = SaveOutcome.noLayersError
      ∧ (saveModel [] true).wrote = false)
  ∧ ((saveModel [clip0] true).outcome = SaveOutcome.success
      ∧ (saveModel [clip0] true).releaseAllCount = 1) :=
  C6_render_paths [clip0] true (by simp)

lemma droppedNote_false_iff (s : ℚ) (e : Option ℚ) (n : NoteEvent) :
    droppedNote s e n = false ↔
      (s < n.end_time ∧ ∀ ev, e = some ev → n.start_time < ev) := by
  cases e with
  | none =>
    simp [droppedNote, not_le]
  | some ev =>
    simp [droppedNote, not_le, not_or]
    try tauto

lemma mem_filterNotesStart {s : ℚ} {e : Option ℚ} {notes : List NoteEvent} {m : NoteEvent} :
    m ∈ filterNotesStart s e notes ↔
      ∃ n, n ∈ notes ∧ droppedNote s e n = false ∧ m = adjustNote s e n := by
  induction notes with
  | nil => simp [filterNotesStart]
  | cons n ns ih =>
    by_cases hd : droppedNote s e n
    · rw [filterNotesStart, if_pos hd, ih]
      constructor
      · rintro ⟨x, hx, hxd, hxm⟩
        exact ⟨x, List.mem_cons_of_mem n hx, hxd, hxm⟩
      · rintro ⟨x, hx, hxd, hxm⟩
        rcases List.mem_cons.mp hx with rfl | hx2
        · rw [hd] at hxd
          exact absurd hxd (by simp)
        · exact ⟨x, hx2, hxd, hxm⟩
    · have hdf : droppedNote s e n = false := by
        revert hd
        cases droppedNote s e n <;> simp
      rw [filterNotesStart, if_neg hd]
      simp only [List.mem_cons, ih]
      constructor
      · rintro (rfl | ⟨x, hx, hxd, hxm⟩)
        · exact ⟨n, Or.inl rfl, hdf, rfl⟩
        · exact ⟨x, Or.inr hx, hxd, hxm⟩
      · rintro ⟨x, (rfl | hx), hxd, hxm⟩
        · exact Or.inl hxm
        · exact Or.inr ⟨x, hx, hxd, hxm⟩

/-- Counterexample to C8 as stated: with only the end bound set to 3, the
input event `{start: 5, end: 6}` (which starts after the end bound) is kept
and emitted as `{start: 5, end: 3, duration: -2}`, so the emitted list
violates `endTime ≥ startTime`. -/
theorem C8_counterexample :
    filterNotes [⟨"A", 5, 6, 1⟩] none (some 3) = [⟨"A", 5, 3, -2⟩]
  ∧ ¬ ∀ m ∈ filterNotes [⟨"A", 5, 6, 1⟩] none (some 3),
      m.start_time ≤ m.end_time := by
  have heq : filterNotes [⟨"A", 5, 6, 1⟩] none (some 3) = [⟨"A", 5, 3, -2⟩] := by
    norm_num [filterNotes, clipEnd]
  refine ⟨heq, ?_⟩
  intro hall
  have h := hall ⟨"A", 5, 3, -2⟩ (by rw [heq]; exact List.mem_singleton_self _)
  norm_num at h

/-- C8 as amended: every event emitted by the filter satisfies
`endTime ≥ startTime` provided the inputs do, the window is well formed
(start < end when both bounds are set), and — in the end-only
configuration, where the code clips `endTime` without dropping anything —
no input event starts after the end bound.  (Without that last proviso the
code emits an event with `endTime < startTime`, see the counterexample.) -/
theorem C8_amended_nonneg_duration (notes : List NoteEvent) (startT endT : Option ℚ)
    (hev : ∀ n ∈ notes, n.start_time ≤ n.end_time)
    (hwin : ∀ s ev, startT = some s → endT = some ev → s < ev)
    (hend : startT = none → ∀ ev, endT = some ev → ∀ n ∈ notes, n.start_time ≤ ev) :
    ∀ m ∈ filterNotes notes startT endT, m.start_time ≤ m.end_time := by
  intro m hm
  cases startT with
  | some s =>
    rcases mem_filterNotesStart.mp hm with ⟨n, hn, hdrop, rfl⟩
    rw [droppedNote_false_iff] at hdrop
    obtain ⟨hends, hstarts⟩ := hdrop
    cases endT with
    | some ev =>
      have hse : s < ev := hwin s ev rfl rfl
      have hnev : n.start_time < ev := hstarts ev rfl
      simp only [adjustNote]
      apply sub_le_sub_right
      apply max_le
      · exact le_min (hev n hn) (le_of_lt hnev)
      · exact le_min (le_of_lt hends) (le_of_lt hse)
    | none =>
      simp only [adjustNote]
      apply sub_le_sub_right
      exact max_le (hev n hn) (le_of_lt hends)
  | none =>
    cases endT with
    | some ev =>
      rcases List.mem_map.mp hm with ⟨n, hn, rfl⟩
      by_cases hc : ev < n.end_time
      · simp only [clipEnd, if_pos hc]
        exact hend rfl ev rfl n hn
      · simp only [clipEnd, if_neg hc]
        exact hev n hn
    | none =>
      exact hev m hm

/-- Witness for the amended C8: the event emitted for `{start: 1, end: 3}`
under window `[2, 4)` satisfies `startTime ≤ endTime`. -/
theorem C8_amended_nonneg_duration_witness :
    (⟨"A", 0, 1, 1⟩ : NoteEvent).start_time ≤ (⟨"A", 0, 1, 1⟩ : NoteEvent).end_time :=
  C8_amended_nonneg_duration [⟨"A", 1, 3, 2⟩] (some 2) (some 4)
    (by intro n hn; rcases List.mem_singleton.mp hn with rfl; norm_num)
    (by intro s ev hs hev2
        injection hs with hs2
        injection hev2 with hev3
        rw [← hs2, ← hev3]
        norm_num)
    (fun h => Option.noConfusion h)
    ⟨"A", 0, 1, 1⟩
    (by norm_num [filterNotes, filterNotesStart, droppedNote, adjustNote, max_def, min_def])

lemma adjustNote_not_dropped (s : ℚ) (e : Option ℚ) (n : NoteEvent)
    (hd : droppedNote s e n = false) (hwin : ∀ ev, e = some ev → s < ev) :
    droppedNote 0 (e.map fun x => x - s) (adjustNote s e n) = false := by
  rw [droppedNote_false_iff] at hd ⊢
  obtain ⟨hends, hstarts⟩ := hd
  cases e with
  | none =>
    refine ⟨?_, ?_⟩
    · simp only [adjustNote]
      linarith
    · intro ev2 hev2
      exact Option.noConfusion hev2
  | some ev =>
    have hse : s < ev := hwin ev rfl
    have hnev : n.start_time < ev := hstarts ev rfl
    refine ⟨?_, ?_⟩
    · simp only [adjustNote]
      have : s < min n.end_time ev := lt_min hends hse
      linarith
    · intro ev2 hev2
      simp only [Option.map] at hev2
      injection hev2 with hev3
      rw [← hev3]
      simp only [adjustNote]
      apply sub_lt_sub_right
      exact max_lt hnev hse

lemma adjustNote_idem (s : ℚ) (e : Option ℚ) (n : NoteEvent)
    (hd : droppedNote s e n = false) (hwin : ∀ ev, e = some ev → s < ev) :
    adjustNote 0 (e.map fun x => x - s) (adjustNote s e n) = adjustNote s e n := by
  have h0 : max (max n.start_time s - s) 0 = max n.start_time s - s :=
    max_eq_left (sub_nonneg.mpr (le_max_right _ _))
  cases e with
  | none =>
    simp [adjustNote, h0]
  | some ev =>
    have h1 : min (min n.end_time ev - s) (ev - s) = min n.end_time ev - s :=
      min_eq_left (sub_le_sub_right (min_le_right _ _) s)
    simp [adjustNote, Option.map, h0, h1]

/-- C9.  Filtering is idempotent: applying the filter a second time to the
already-filtered, rebased output — with the same absolute window rebased to
start 0 and end `e − s` — returns that output unchanged (the window being
well formed, start < end when both bounds are set). -/
theorem C9_filter_idempotent (notes : List NoteEvent) (s : ℚ) (e : Option ℚ)
    (hwin : ∀ ev, e = some ev → s < ev) :
    filterNotes (filterNotes notes (some s) e) (some 0) (e.map fun x => x - s) =
      filterNotes notes (some s) e := by
  show filterNotesStart 0 (e.map fun x => x - s) (filterNotesStart s e notes) =
    filterNotesStart s e notes
  induction notes with
  | nil => rfl
  | cons n ns ih =>
    by_cases hd : droppedNote s e n
    · rw [filterNotesStart, if_pos hd]
      exact ih
    · have hdf : droppedNote s e n = false := by
        revert hd
        cases droppedNote s e n <;> simp
      rw [filterNotesStart, if_neg hd, filterNotesStart,
        if_neg (by rw [adjustNote_not_dropped s e n hdf hwin]; simp),
        adjustNote_idem s e n hdf hwin, ih]

/-- Witness for C9 on a concrete event list and window [2, 4). -/
theorem C9_filter_idempotent_witness :
    filterNotes (filterNotes [⟨"A", 1, 3, 2⟩, ⟨"B", 5, 6, 1⟩] (some 2) (some 4))
        (some 0) ((some 4).map fun x => x - 2) =
      filterNotes [⟨"A", 1, 3, 2⟩, ⟨"B", 5, 6, 1⟩] (some 2) (some 4) :=
  C9_filter_idempotent [⟨"A", 1, 3, 2⟩, ⟨"B", 5, 6, 1⟩] 2 (some 4)
    (by intro ev hev2
        injection hev2 with hev3
        rw [← hev3]
        norm_num)
